import Mathlib

/-!
Verification of the 2048-style rule engine in `src/game_view_2048.rs`.

The board is the 36-cell grid of `GameState::state` (row-major, `6*row+column`),
modelled as a `List Nat` of length 36.  Tile values are `u64` in the source;
they are modelled as `Nat` (the values reachable in play are doublings of 1
bounded far below `2^64`, so `u64` overflow is unreachable and the wrap is not
modelled).  The fallible parts (the bounds-checked `Index`/`IndexMut`, which
abort on an out-of-range coordinate) are modelled with `Option`.
-/

set_option maxRecDepth 4000

/-- The four move directions (`enum Direction`). -/
inductive Direction where
  | Up | Down | Left | Right
deriving DecidableEq, Repr

/-- A board cell address (`struct Position { row: u8, column: u8 }`). -/
structure Position where
  row : Nat
  column : Nat
deriving DecidableEq, Repr

/-- `Direction::opposite`. -/
def Direction.opposite : Direction → Direction
  | .Up => .Down
  | .Down => .Up
  | .Left => .Right
  | .Right => .Left

/-- `Direction::perpendicular_positive`. -/
def Direction.perpendicular_positive : Direction → Direction
  | .Up => .Left
  | .Left => .Down
  | .Down => .Right
  | .Right => .Up

/-- `Position::position`: the flat row-major index `6*row + column`. -/
def Position.position (p : Position) : Nat := 6 * p.row + p.column

/-- `Position::neibouring_cell`: the adjacent cell in the given direction,
`none` at the board edge. -/
def Position.neibouring_cell (p : Position) : Direction → Option Position
  | .Up => if p.row = 0 then none else some ⟨p.row - 1, p.column⟩
  | .Down => if p.row = 5 then none else some ⟨p.row + 1, p.column⟩
  | .Left => if p.column = 0 then none else some ⟨p.row, p.column - 1⟩
  | .Right => if p.column = 5 then none else some ⟨p.row, p.column + 1⟩

/-- `Position::from_index`. -/
def Position.from_index (index : Nat) : Position := ⟨index / 6, index % 6⟩

/-- `struct GameState`: the 36-cell grid plus the two terminal flags. -/
structure GameState where
  state : List Nat
  is_dead : Bool
  won : Bool
deriving DecidableEq, Repr

/-- Unchecked cell read, `self.state[i.position()]` (used by the game's own
operations, whose positions are always in bounds; see the bounds theorem). -/
def GameState.read (g : GameState) (p : Position) : Nat :=
  g.state.getD p.position 0

/-- Unchecked cell write. -/
def GameState.setCell (g : GameState) (p : Position) (v : Nat) : GameState :=
  { g with state := g.state.set p.position v }

/-- The bounds-checked read of `impl Index<Position> for GameState`:
`none` models the abort (fail-fast) on `i.row > 5 || i.column > 5`. -/
def GameState.index (g : GameState) (p : Position) : Option Nat :=
  if 5 < p.row ∨ 5 < p.column then none
  else some (g.state.getD p.position 0)

/-- The bounds-checked write of `impl IndexMut<Position> for GameState`:
`none` models the abort on `i.row > 5 || i.column > 5`. -/
def GameState.indexSet (g : GameState) (p : Position) (v : Nat) : Option GameState :=
  if 5 < p.row ∨ 5 < p.column then none
  else some (g.setCell p v)

/-- `GameState::mergeable`: both cells non-empty and holding equal values. -/
def GameState.mergeable (g : GameState) (x y : Position) : Bool :=
  (g.read x != 0) && (g.read y != 0) && (g.read x == g.read y)

/-- The `LineIteration` iterator, as the list of positions it yields: starting
at `p`, repeatedly step by `neibouring_cell` in `dir` until the edge.  The
Rust iterator stops exactly at the edge; the fuel (36 everywhere below) is
never exhausted for in-bounds positions. -/
def lineFrom : Nat → Position → Direction → List Position
  | 0, _, _ => []
  | fuel + 1, p, dir =>
      p :: (match p.neibouring_cell dir with
            | none => []
            | some n => lineFrom fuel n dir)

/-- A full line of the board read from `p` in direction `dir`. -/
def line (p : Position) (dir : Direction) : List Position := lineFrom 36 p dir

/-- `LineIteration::heads`: the six line-head cells for a move direction. -/
def LineIteration.heads (d : Direction) : List Position :=
  line (match d with
        | .Up => ⟨0, 5⟩
        | .Down => ⟨5, 0⟩
        | .Left => ⟨0, 0⟩
        | .Right => ⟨5, 5⟩) d.perpendicular_positive

/-- `GameState::wins`: some cell holds at least 2048. -/
def GameState.wins (g : GameState) : Bool :=
  (List.range 36).any fun i => decide (2048 ≤ g.state.getD i 0)

/-- One `if let Some(j) = p.neibouring_cell(dir) { if self.mergeable(p, j) {
return false } }` block of `GameState::dead`: true when the neighbour check
does not bail out. -/
def GameState.neighborOK (g : GameState) (p : Position) (dir : Direction) : Bool :=
  match p.neibouring_cell dir with
  | none => true
  | some j => !(g.mergeable p j)

/-- `GameState::dead`: every cell is non-empty and no cell has a mergeable
neighbour in any of the four directions. -/
def GameState.dead (g : GameState) : Bool :=
  (List.range 36).all fun i =>
    (g.read (Position.from_index i) != 0)
      && g.neighborOK (Position.from_index i) .Up
      && g.neighborOK (Position.from_index i) .Down
      && g.neighborOK (Position.from_index i) .Left
      && g.neighborOK (Position.from_index i) .Right

/-- The list of flat indices of empty cells, as built by
`add_at_random_position` (`iter().enumerate()` + option filter). -/
def GameState.empties (g : GameState) : List Nat :=
  (g.state.enum.map fun s => if s.2 = 0 then some s.1 else none).filterMap id

/-- `GameState::add_at_random_position`, with the random byte made explicit:
if an empty cell exists, set the one indexed by `byte % count` to 1. -/
def GameState.add_at_random_position (g : GameState) (byte : Nat) : GameState :=
  let empties := g.empties
  if empties.length = 0 then g
  else { g with state := g.state.set (empties.getD (byte % empties.length) 0) 1 }

/-- The scan loop of `GameState::aggregate`: state is (board, write cursor,
pending count).  The `.unwrap()` on the write-cursor advance is modelled by
`getD`; the advance only runs when the cursor is strictly behind the scanned
cell, where the neighbour exists. -/
def aggregateLoop (d : Direction) :
    List Position → GameState → Position → Nat → GameState × Position × Nat
  | [], g, w, c => (g, w, c)
  | p :: ps, g, w, c =>
    if g.read p = 0 then aggregateLoop d ps g w c
    else if c = 0 then aggregateLoop d ps (g.setCell w (g.read p)) w 1
    else if c = 1 then
      if g.mergeable w p then
        aggregateLoop d ps (g.setCell w (g.read w + g.read p))
          ((w.neibouring_cell d.opposite).getD w) 0
      else
        aggregateLoop d ps
          (g.setCell ((w.neibouring_cell d.opposite).getD w) (g.read p))
          ((w.neibouring_cell d.opposite).getD w) 1
    else aggregateLoop d ps g w c

/-- `GameState::aggregate`: one merge pass over the line starting at `head`,
for a press in `direction` (the line is scanned in `direction.opposite`),
followed by clearing the cells past the write cursor. -/
def GameState.aggregate (g : GameState) (head : Position) (direction : Direction) :
    GameState :=
  let res := aggregateLoop direction (line head direction.opposite) g head 0
  let remaining :=
    if res.2.2 = 0 then line res.2.1 direction.opposite
    else
      match res.2.1.neibouring_cell direction.opposite with
      | some next => line next direction.opposite
      | none => []
  remaining.foldl (fun s p => s.setCell p 0) res.1

/-- The merge pass over all six lines (the `for head in heads` loop of
`update_state`). -/
def GameState.mergeAll (g : GameState) (d : Direction) : GameState :=
  (LineIteration.heads d).foldl (fun s h => s.aggregate h d) g

/-- `GameState::update_state`, with the spawn's random byte explicit. -/
def GameState.update_state (g : GameState) (d : Direction) (byte : Nat) : GameState :=
  let g1 := g.mergeAll d
  if g1.wins then { g1 with won := true }
  else
    let g2 := g1.add_at_random_position byte
    if g2.dead then { g2 with is_dead := true } else g2

/-- `Component::update`: the move event handler.  Returns the new state and
the "state changed" report. -/
def GameState.update (g : GameState) (d : Direction) (byte : Nat) : GameState × Bool :=
  if !g.is_dead && !g.won then (g.update_state d byte, true) else (g, false)

/-! ## Pure value-level model of one merge pass

`pureLoop` mirrors the scan loop of `aggregate` on the list of cell values of
the line: `done` are the finalized output values, the option is the staged
value awaiting a possible merge.  `mergeLine` is the full pass including the
trailing clear. -/

def pureLoop : List Nat → List Nat → Option Nat → List Nat × Option Nat
  | [], done, st => (done, st)
  | v :: vs, done, st =>
    if v = 0 then pureLoop vs done st
    else
      match st with
      | none => pureLoop vs done (some v)
      | some s =>
        if s = v then pureLoop vs (done ++ [s + v]) none
        else pureLoop vs (done ++ [s]) (some v)

def mergeLine (vs : List Nat) : List Nat :=
  let r := pureLoop vs [] none
  let out := r.1 ++ r.2.toList
  out ++ List.replicate (vs.length - out.length) 0

/-- The values of the cells of `L` on board list `l`. -/
def readVals (l : List Nat) (L : List Position) : List Nat :=
  L.map fun p => l.getD p.position 0

/-- Overwrite the cells of `L` on board list `l` with the values `vs`. -/
def writeVals (l : List Nat) (L : List Position) (vs : List Nat) : List Nat :=
  (L.zip vs).foldl (fun acc pv => acc.set pv.1.position pv.2) l

/-! ## List helper lemmas -/

theorem getD_set_self {α : Type} [Inhabited α] (l : List α) (i : Nat) (v d : α)
    (h : i < l.length) : (l.set i v).getD i d = v := by
  induction l generalizing i with
  | nil => simp at h
  | cons a t ih =>
    cases i with
    | zero => simp [List.set, List.getD]
    | succ n =>
      simp only [List.set, List.getD_cons_succ]
      exact ih n (by simpa using h)

theorem getD_set_other {α : Type} (l : List α) (i j : Nat) (v d : α)
    (h : i ≠ j) : (l.set i v).getD j d = l.getD j d := by
  induction l generalizing i j with
  | nil => simp [List.set]
  | cons a t ih =>
    cases i with
    | zero =>
      cases j with
      | zero => exact absurd rfl h
      | succ m => simp [List.set, List.getD]
    | succ n =>
      cases j with
      | zero => simp [List.set, List.getD]
      | succ m =>
        simp only [List.set, List.getD_cons_succ]
        exact ih n m (fun e => h (by rw [e]))

theorem getD_append_left {α : Type} (l1 l2 : List α) (i : Nat) (d : α)
    (h : i < l1.length) : (l1 ++ l2).getD i d = l1.getD i d := by
  induction l1 generalizing i with
  | nil => simp at h
  | cons a t ih =>
    cases i with
    | zero => simp [List.getD]
    | succ n =>
      simp only [List.cons_append, List.getD_cons_succ]
      exact ih n (by simpa using h)

theorem getD_append_right {α : Type} (l1 l2 : List α) (i : Nat) (d : α)
    (h : l1.length ≤ i) : (l1 ++ l2).getD i d = l2.getD (i - l1.length) d := by
  induction l1 generalizing i with
  | nil => simp
  | cons a t ih =>
    cases i with
    | zero => simp at h
    | succ n =>
      simp only [List.cons_append, List.getD_cons_succ, List.length_cons]
      rw [ih n (by simpa using h)]
      simp [Nat.succ_sub_succ]

theorem getD_mem {α : Type} (l : List α) (i : Nat) (d : α) (h : i < l.length) :
    l.getD i d ∈ l := by
  induction l generalizing i with
  | nil => simp at h
  | cons a t ih =>
    cases i with
    | zero => simp [List.getD]
    | succ n =>
      simp only [List.getD_cons_succ]
      exact List.mem_cons_of_mem a (ih n (by simp at h; omega))

theorem getD_replicate {α : Type} (n i : Nat) (d : α) :
    (List.replicate n d).getD i d = d := by
  induction n generalizing i with
  | zero => simp [List.getD]
  | succ m ih =>
    cases i with
    | zero => simp [List.replicate, List.getD]
    | succ k =>
      rw [List.replicate, List.getD_cons_succ]
      exact ih k

theorem drop_cons {α : Type} (l t : List α) (p : α) (k : Nat)
    (h : l.drop k = p :: t) : l.getD k p = p ∧ l.drop (k + 1) = t := by
  induction l generalizing k with
  | nil => simp at h
  | cons a l' ih =>
    cases k with
    | zero =>
      simp only [List.drop_zero] at h
      cases h
      exact ⟨rfl, by simp⟩
    | succ n =>
      simp only [List.drop_succ_cons] at h
      have := ih n h
      exact ⟨by simpa [List.getD_cons_succ] using this.1, by simpa using this.2⟩

theorem getD_eq_getD {α : Type} (l : List α) (i : Nat) (d d' : α)
    (h : i < l.length) : l.getD i d = l.getD i d' := by
  induction l generalizing i with
  | nil => simp at h
  | cons a t ih =>
    cases i with
    | zero => simp [List.getD]
    | succ n =>
      simp only [List.getD_cons_succ]
      exact ih n (by simpa using h)

theorem ext_getD {α : Type} (l1 l2 : List α) (d : α)
    (hlen : l1.length = l2.length)
    (h : ∀ i, i < l1.length → l1.getD i d = l2.getD i d) : l1 = l2 := by
  induction l1 generalizing l2 with
  | nil => cases l2 with
    | nil => rfl
    | cons b t => simp at hlen
  | cons a t ih =>
    cases l2 with
    | nil => simp at hlen
    | cons b t2 =>
      have h0 := h 0 (by simp)
      simp only [List.getD_cons_zero] at h0
      subst h0
      have := ih t2 (by simpa using hlen)
        (fun i hi => by simpa [List.getD_cons_succ] using h (i+1) (by simpa using hi))
      rw [this]

/-! ## Line structure -/

/-- The `i`-th position of a line (default `(0,0)` is never used at valid
indices). -/
def pat (L : List Position) (i : Nat) : Position := L.getD i ⟨0, 0⟩

/-- The structural facts about a line list `L` scanned in direction `dir`:
nonempty, in bounds, no repeated cell, consecutive cells are neighbours, and
the iterator restarted at any cell of the line yields the corresponding
suffix. -/
def lineOK (L : List Position) (dir : Direction) : Prop :=
  L ≠ [] ∧
  (∀ p ∈ L, p.row ≤ 5 ∧ p.column ≤ 5) ∧
  (L.map Position.position).Nodup ∧
  (∀ i, i < L.length → i + 1 < L.length →
    (pat L i).neibouring_cell dir = some (pat L (i + 1))) ∧
  (∀ i, i < L.length → line (pat L i) dir = L.drop i)

instance lineOK_decidable (L : List Position) (dir : Direction) :
    Decidable (lineOK L dir) := by
  unfold lineOK; infer_instance

theorem position_lt_36 (p : Position) (hr : p.row ≤ 5) (hc : p.column ≤ 5) :
    p.position < 36 := by
  unfold Position.position; omega

theorem pat_eq_getElem (L : List Position) (i : Nat) (h : i < L.length) :
    pat L i = L[i] := by
  induction L generalizing i with
  | nil => simp at h
  | cons a t ih =>
    cases i with
    | zero => simp [pat, List.getD]
    | succ n =>
      simp only [pat, List.getD_cons_succ, List.getElem_cons_succ]
      exact ih n (by simpa using h)

theorem pat_mem (L : List Position) (i : Nat) (h : i < L.length) : pat L i ∈ L :=
  getD_mem L i ⟨0, 0⟩ h

theorem patPos_mem_map (L : List Position) (i : Nat) (h : i < L.length) :
    (pat L i).position ∈ L.map Position.position :=
  List.mem_map_of_mem Position.position (pat_mem L i h)

theorem patPos_inj (L : List Position) (hnd : (L.map Position.position).Nodup)
    (i j : Nat) (hi : i < L.length) (hj : j < L.length)
    (h : (pat L i).position = (pat L j).position) : i = j := by
  have hi' : i < (L.map Position.position).length := by simpa using hi
  have hj' : j < (L.map Position.position).length := by simpa using hj
  apply (@List.Nodup.getElem_inj_iff _ _ hnd i hi' j hj').mp
  rw [List.getElem_map, List.getElem_map, ← pat_eq_getElem L i hi, ← pat_eq_getElem L j hj]
  exact h

/-! ## The invariant of the aggregate scan loop

`L` is the line, `l0` the original board list, `k` the number of scanned line
cells, `done`/`st` the pure-loop state, `w`/`c` the write cursor and pending
count of the board-level loop. -/

def LoopInv (L : List Position) (l0 : List Nat) (k : Nat) (g : GameState)
    (done : List Nat) (st : Option Nat) (w : Position) (c : Nat) : Prop :=
  g.state.length = 36 ∧
  (∀ j, j ∉ L.map Position.position → g.state.getD j 0 = l0.getD j 0) ∧
  (∀ i, i < done.length → g.state.getD (pat L i).position 0 = done.getD i 0) ∧
  (match st with
   | some s => c = 1 ∧ s ≠ 0 ∧ g.state.getD (pat L done.length).position 0 = s
   | none => c = 0) ∧
  (∀ i, k ≤ i → i < L.length →
    g.state.getD (pat L i).position 0 = l0.getD (pat L i).position 0) ∧
  w = pat L done.length ∧
  done.length + c ≤ k ∧
  (st = none → done.length = 0 ∨ done.length < k)

theorem setCell_state (g : GameState) (p : Position) (v : Nat) :
    (g.setCell p v).state = g.state.set p.position v := rfl

/-- One scan loop of `aggregate` is simulated by `pureLoop` on the line's
values: scanning the remaining cells `L.drop k` from an invariant-satisfying
state re-establishes the invariant at the end of the line. -/
theorem aggLoop_sim (d : Direction) (L : List Position) (l0 : List Nat)
    (hok : lineOK L d.opposite) :
    ∀ (rest : List Position) (k : Nat) (g : GameState) (done : List Nat)
      (st : Option Nat) (w : Position) (c : Nat),
      rest = L.drop k → k ≤ L.length →
      LoopInv L l0 k g done st w c →
      LoopInv L l0 L.length (aggregateLoop d rest g w c).1
        (pureLoop (readVals l0 rest) done st).1
        (pureLoop (readVals l0 rest) done st).2
        (aggregateLoop d rest g w c).2.1 (aggregateLoop d rest g w c).2.2 := by
  have hbounds := hok.2.1
  have hnd := hok.2.2.1
  have hchain := hok.2.2.2.1
  intro rest
  induction rest with
  | nil =>
    intro k g done st w c hrest hk hinv
    have hlk : L.length ≤ k := List.drop_eq_nil_iff.mp hrest.symm
    have : k = L.length := le_antisymm hk hlk
    subst this
    simpa [aggregateLoop, pureLoop, readVals] using hinv
  | cons p rest' ih =>
    intro k g done st w c hrest hk hinv
    have hkL : k < L.length := by
      have h1 : (L.drop k).length = L.length - k := List.length_drop k L
      rw [← hrest] at h1
      simp only [List.length_cons] at h1
      omega
    have hdc := drop_cons L rest' p k hrest.symm
    have hpat : pat L k = p := by
      rw [pat, getD_eq_getD L k ⟨0, 0⟩ p hkL, hdc.1]
    have hrest' : rest' = L.drop (k + 1) := hdc.2.symm
    obtain ⟨hlen, hoff, hdone, hst, horig, hw, hcount, hnone⟩ := hinv
    have hv : g.read p = l0.getD p.position 0 := by
      rw [GameState.read, ← hpat]
      exact horig k (le_refl k) hkL
    have hrv : readVals l0 (p :: rest') =
        l0.getD p.position 0 :: readVals l0 rest' := by
      simp only [readVals, List.map_cons]
    by_cases hv0 : l0.getD p.position 0 = 0
    · -- empty cell: both loops skip
      have e1 : aggregateLoop d (p :: rest') g w c = aggregateLoop d rest' g w c := by
        simp only [aggregateLoop]
        rw [hv, if_pos hv0]
      have e2 : pureLoop (readVals l0 (p :: rest')) done st
          = pureLoop (readVals l0 rest') done st := by
        rw [hrv]
        simp only [pureLoop]
        rw [if_pos hv0]
      rw [e1, e2]
      refine ih (k + 1) g done st w c hrest' (by omega)
        ⟨hlen, hoff, hdone, hst, ?_, hw, by omega, ?_⟩
      · intro i hi hiL; exact horig i (by omega) hiL
      · intro h; rcases hnone h with h0 | hlt
        · exact Or.inl h0
        · exact Or.inr (by omega)
    · cases st with
      | none =>
        have hc0 : c = 0 := hst
        subst hc0
        have hdk : done.length ≤ k := by omega
        have hdL : done.length < L.length := lt_of_le_of_lt hdk hkL
        have hwpos : (pat L done.length).position < 36 := by
          have hb := hbounds (pat L done.length) (pat_mem L done.length hdL)
          exact position_lt_36 _ hb.1 hb.2
        have e1 : aggregateLoop d (p :: rest') g w 0
            = aggregateLoop d rest' (g.setCell w (l0.getD p.position 0)) w 1 := by
          simp only [aggregateLoop]
          rw [hv, if_neg hv0, if_pos trivial]
        have e2 : pureLoop (readVals l0 (p :: rest')) done none
            = pureLoop (readVals l0 rest') done (some (l0.getD p.position 0)) := by
          rw [hrv]
          simp only [pureLoop]
          rw [if_neg hv0]
        rw [e1, e2]
        refine ih (k + 1) _ done _ w 1 hrest' (by omega)
          ⟨by simp [setCell_state, hlen], ?_, ?_, ?_, ?_, hw, by omega, by simp⟩
        · intro j hj
          rw [setCell_state]
          rw [getD_set_other]
          · exact hoff j hj
          · intro he
            exact hj (he ▸ (hw ▸ patPos_mem_map L done.length hdL))
        · intro i hi
          rw [setCell_state, hw, getD_set_other]
          · exact hdone i hi
          · intro he
            have := patPos_inj L hnd done.length i hdL (lt_trans hi hdL) he
            omega
        · refine ⟨rfl, hv0, ?_⟩
          rw [setCell_state, hw, getD_set_self]
          rw [hlen]; exact hwpos
        · intro i hi hiL
          rw [setCell_state, hw, getD_set_other]
          · exact horig i (by omega) hiL
          · intro he
            have := patPos_inj L hnd done.length i hdL hiL he
            omega
      | some s =>
        obtain ⟨hc1, hs0, hsval⟩ := hst
        subst hc1
        have hd1k : done.length + 1 ≤ k := hcount
        have hdL : done.length < L.length := by omega
        have hd1L : done.length + 1 < L.length := by omega
        have hwpos : (pat L done.length).position < 36 := by
          have hb := hbounds (pat L done.length) (pat_mem L done.length hdL)
          exact position_lt_36 _ hb.1 hb.2
        have hwpos1 : (pat L (done.length + 1)).position < 36 := by
          have hb := hbounds (pat L (done.length + 1)) (pat_mem L (done.length + 1) hd1L)
          exact position_lt_36 _ hb.1 hb.2
        have hreadw : g.read w = s := by rw [GameState.read, hw]; exact hsval
        have hnb : w.neibouring_cell d.opposite = some (pat L (done.length + 1)) := by
          rw [hw]; exact hchain done.length hdL hd1L
        by_cases hsv : s = l0.getD p.position 0
        · -- merge
          have hm : g.mergeable w p = true := by
            rw [GameState.mergeable, hreadw, hv, ← hsv]
            simp [hs0]
          have e1 : aggregateLoop d (p :: rest') g w 1
              = aggregateLoop d rest'
                  (g.setCell w (s + l0.getD p.position 0)) (pat L (done.length + 1)) 0 := by
            simp only [aggregateLoop]
            rw [hv, if_neg hv0, if_pos trivial, hm, if_pos rfl,
              hreadw, hnb, Option.getD_some, if_neg one_ne_zero]
          have e2 : pureLoop (readVals l0 (p :: rest')) done (some s)
              = pureLoop (readVals l0 rest')
                  (done ++ [s + l0.getD p.position 0]) none := by
            rw [hrv]
            simp only [pureLoop]
            rw [if_neg hv0, if_pos hsv]
          rw [e1, e2]
          refine ih (k + 1) _ _ _ _ 0 hrest' (by omega)
            ⟨by simp [setCell_state, hlen], ?_, ?_, rfl, ?_, ?_, ?_, ?_⟩
          · intro j hj
            rw [setCell_state, hw, getD_set_other]
            · exact hoff j hj
            · intro he
              exact hj (he ▸ patPos_mem_map L done.length hdL)
          · intro i hi
            simp only [List.length_append, List.length_cons, List.length_nil] at hi
            rw [setCell_state, hw]
            rcases Nat.lt_or_ge i done.length with hilt | hige
            · rw [getD_set_other, getD_append_left _ _ _ _ hilt]
              · exact hdone i hilt
              · intro he
                have := patPos_inj L hnd done.length i hdL (by omega) he
                omega
            · have : i = done.length := by omega
              subst this
              rw [getD_set_self, getD_append_right _ _ _ _ (le_refl _)]
              · simp
              · rw [hlen]; exact hwpos
          · intro i hi hiL
            rw [setCell_state, hw, getD_set_other]
            · exact horig i (by omega) hiL
            · intro he
              have := patPos_inj L hnd done.length i hdL hiL he
              omega
          · simp
          · simp only [List.length_append, List.length_cons, List.length_nil]
            omega
          · intro _
            right
            simp only [List.length_append, List.length_cons, List.length_nil]
            omega
        · -- different value: push the staged value forward
          have hm : g.mergeable w p = false := by
            rw [GameState.mergeable, hreadw, hv]
            generalize l0.getD p.position 0 = v at hsv
            simp [hsv]
          have e1 : aggregateLoop d (p :: rest') g w 1
              = aggregateLoop d rest'
                  (g.setCell (pat L (done.length + 1)) (l0.getD p.position 0))
                  (pat L (done.length + 1)) 1 := by
            simp only [aggregateLoop]
            rw [hv, if_neg hv0, if_pos trivial, hm, if_neg Bool.false_ne_true,
              hnb, Option.getD_some, if_neg one_ne_zero]
          have e2 : pureLoop (readVals l0 (p :: rest')) done (some s)
              = pureLoop (readVals l0 rest')
                  (done ++ [s]) (some (l0.getD p.position 0)) := by
            rw [hrv]
            simp only [pureLoop]
            rw [if_neg hv0, if_neg hsv]
          rw [e1, e2]
          refine ih (k + 1) _ _ _ _ 1 hrest' (by omega)
            ⟨by simp [setCell_state, hlen], ?_, ?_, ?_, ?_, ?_, ?_, by simp⟩
          · intro j hj
            rw [setCell_state, getD_set_other]
            · exact hoff j hj
            · intro he
              exact hj (he ▸ patPos_mem_map L (done.length + 1) hd1L)
          · intro i hi
            simp only [List.length_append, List.length_cons, List.length_nil] at hi
            rw [setCell_state]
            rcases Nat.lt_or_ge i done.length with hilt | hige
            · rw [getD_set_other, getD_append_left _ _ _ _ hilt]
              · exact hdone i hilt
              · intro he
                have := patPos_inj L hnd (done.length + 1) i hd1L (by omega) he
                omega
            · have : i = done.length := by omega
              subst this
              rw [getD_set_other, getD_append_right _ _ _ _ (le_refl _)]
              · simpa using hsval
              · intro he
                have := patPos_inj L hnd (done.length + 1) done.length hd1L hdL he
                omega
          · refine ⟨rfl, hv0, ?_⟩
            rw [setCell_state]
            simp only [List.length_append, List.length_cons, List.length_nil]
            rw [getD_set_self]
            rw [hlen]; exact hwpos1
          · intro i hi hiL
            rw [setCell_state, getD_set_other]
            · exact horig i (by omega) hiL
            · intro he
              have := patPos_inj L hnd (done.length + 1) i hd1L hiL he
              omega
          · simp only [List.length_append, List.length_cons, List.length_nil]
          · simp only [List.length_append, List.length_cons, List.length_nil]
            omega

theorem getD_drop {α : Type} (l : List α) (s i : Nat) (d : α) :
    (l.drop s).getD i d = l.getD (s + i) d := by
  induction l generalizing s with
  | nil => simp
  | cons a t ih =>
    cases s with
    | zero => simp
    | succ n =>
      simp only [List.drop_succ_cons, Nat.succ_add, List.getD_cons_succ]
      exact ih n

/-- A cell of the line is in the suffix `L.drop s` exactly when its index is
at least `s` (lines have no repeated cell). -/
theorem mem_map_drop_iff (L : List Position) (hnd : (L.map Position.position).Nodup)
    (s i : Nat) (hi : i < L.length) :
    (pat L i).position ∈ (L.drop s).map Position.position ↔ s ≤ i := by
  constructor
  · intro hmem
    obtain ⟨q, hq, hqj⟩ := List.mem_map.mp hmem
    obtain ⟨t, ht, hqt⟩ := List.mem_iff_getElem.mp hq
    have hdl : (L.drop s).length = L.length - s := List.length_drop s L
    have hst : s + t < L.length := by omega
    have hqpat : q = pat L (s + t) := by
      rw [← hqt, ← pat_eq_getElem _ _ ht, pat, getD_drop, ← pat]
    have : i = s + t := by
      apply patPos_inj L hnd i (s + t) hi hst
      rw [← hqj, hqpat]
    omega
  · intro hs
    have hdl : (L.drop s).length = L.length - s := List.length_drop s L
    have hlt : i - s < (L.drop s).length := by omega
    have : pat (L.drop s) (i - s) = pat L i := by
      rw [pat, getD_drop, ← pat]
      congr 1
      omega
    rw [← this]
    exact List.mem_map_of_mem Position.position (pat_mem _ _ hlt)

theorem clear_fold_length (ps : List Position) :
    ∀ g : GameState,
      ((ps.foldl (fun s p => s.setCell p 0) g).state.length = g.state.length) := by
  induction ps with
  | nil => intro g; rfl
  | cons p t ih =>
    intro g
    simp only [List.foldl_cons]
    rw [ih (g.setCell p 0), setCell_state, List.length_set]

theorem clear_fold_getD (ps : List Position) :
    ∀ (g : GameState) (j : Nat),
      (∀ q ∈ ps, q.position < g.state.length) →
      (ps.foldl (fun s p => s.setCell p 0) g).state.getD j 0
        = if j ∈ ps.map Position.position then 0 else g.state.getD j 0 := by
  induction ps with
  | nil => intro g j _; simp
  | cons p t ih =>
    intro g j hb
    simp only [List.foldl_cons]
    rw [ih (g.setCell p 0) j]
    · by_cases hjt : j ∈ t.map Position.position
      · simp [hjt]
      · by_cases hjp : j = p.position
        · rw [if_neg hjt, if_pos]
          · rw [setCell_state, hjp, getD_set_self]
            exact hb p (List.mem_cons_self p t)
          · simp [hjp]
        · rw [if_neg hjt, if_neg]
          · rw [setCell_state, getD_set_other]
            intro he; exact hjp he.symm
          · simp only [List.map_cons, List.mem_cons]
            intro h; rcases h with h | h
            · exact hjp h
            · exact hjt h
    · intro q hq
      rw [setCell_state, List.length_set]
      exact hb q (List.mem_cons_of_mem p hq)

theorem clear_fold_flags (ps : List Position) :
    ∀ g : GameState,
      ((ps.foldl (fun s p => s.setCell p 0) g).is_dead = g.is_dead
        ∧ (ps.foldl (fun s p => s.setCell p 0) g).won = g.won) := by
  induction ps with
  | nil => intro g; exact ⟨rfl, rfl⟩
  | cons p t ih =>
    intro g
    simp only [List.foldl_cons]
    exact ih (g.setCell p 0)

theorem aggregateLoop_flags (d : Direction) (ps : List Position) :
    ∀ (g : GameState) (w : Position) (c : Nat),
      ((aggregateLoop d ps g w c).1.is_dead = g.is_dead
        ∧ (aggregateLoop d ps g w c).1.won = g.won) := by
  induction ps with
  | nil => intro g w c; exact ⟨rfl, rfl⟩
  | cons p t ih =>
    intro g w c
    simp only [aggregateLoop]
    split
    · exact ih g w c
    · split
      · exact ih _ w 1
      · split
        · split
          · exact ih _ _ 0
          · exact ih _ _ 1
        · exact ih g w c

theorem writeVals_nil_line (l : List Nat) (vs : List Nat) :
    writeVals l [] vs = l := rfl

theorem writeVals_nil_vals (l : List Nat) (L : List Position) :
    writeVals l L [] = l := by
  cases L <;> rfl

theorem writeVals_cons (l : List Nat) (p : Position) (L : List Position)
    (v : Nat) (vs : List Nat) :
    writeVals l (p :: L) (v :: vs) = writeVals (l.set p.position v) L vs := rfl

theorem writeVals_length (L : List Position) :
    ∀ (l : List Nat) (vs : List Nat), (writeVals l L vs).length = l.length := by
  induction L with
  | nil => intro l vs; rfl
  | cons p t ih =>
    intro l vs
    cases vs with
    | nil => rw [writeVals_nil_vals]
    | cons v vs' =>
      rw [writeVals_cons, ih, List.length_set]

theorem writeVals_frame (L : List Position) :
    ∀ (l : List Nat) (vs : List Nat) (j : Nat),
      j ∉ L.map Position.position →
      (writeVals l L vs).getD j 0 = l.getD j 0 := by
  induction L with
  | nil => intro l vs j _; rfl
  | cons p t ih =>
    intro l vs j hj
    cases vs with
    | nil => rw [writeVals_nil_vals]
    | cons v vs' =>
      rw [writeVals_cons, ih]
      · rw [getD_set_other]
        intro he
        exact hj (by simp [← he])
      · intro h
        exact hj (by simp [h])

theorem writeVals_getD (L : List Position) :
    ∀ (l : List Nat) (vs : List Nat) (i : Nat),
      (L.map Position.position).Nodup →
      (∀ q ∈ L, q.position < l.length) →
      vs.length = L.length →
      i < L.length →
      (writeVals l L vs).getD (pat L i).position 0 = vs.getD i 0 := by
  induction L with
  | nil => intro l vs i _ _ _ hi; simp at hi
  | cons p t ih =>
    intro l vs i hnd hb hvl hi
    cases vs with
    | nil => simp at hvl
    | cons v vs' =>
      rw [writeVals_cons]
      cases i with
      | zero =>
        have hp : pat (p :: t) 0 = p := by simp [pat]
        rw [hp, writeVals_frame t _ _ _ (by simpa using (List.nodup_cons.mp hnd).1),
          getD_set_self]
        · simp
        · exact hb p (List.mem_cons_self p t)
      | succ n =>
        have hp : pat (p :: t) (n + 1) = pat t n := by simp [pat]
        rw [hp, ih]
        · simp
        · exact (List.nodup_cons.mp hnd).2
        · intro q hq
          rw [List.length_set]
          exact hb q (List.mem_cons_of_mem p hq)
        · simpa using hvl
        · simpa using hi

theorem pureLoop_out_le : ∀ (vs done : List Nat) (st : Option Nat),
    (pureLoop vs done st).1.length + (pureLoop vs done st).2.toList.length
      ≤ done.length + st.toList.length + vs.length := by
  intro vs
  induction vs with
  | nil => intro done st; simp [pureLoop]
  | cons v vs' ih =>
    intro done st
    by_cases hv : v = 0
    · rw [show pureLoop (v :: vs') done st = pureLoop vs' done st from by
        simp only [pureLoop]; rw [if_pos hv]]
      have := ih done st
      simp only [List.length_cons]
      omega
    · cases st with
      | none =>
        rw [show pureLoop (v :: vs') done none = pureLoop vs' done (some v) from by
          simp only [pureLoop]; rw [if_neg hv]]
        have := ih done (some v)
        simp only [Option.toList_some, Option.toList_none, List.length_cons,
          List.length_nil] at this ⊢
        omega
      | some s =>
        by_cases hs : s = v
        · rw [show pureLoop (v :: vs') done (some s)
              = pureLoop vs' (done ++ [s + v]) none from by
            simp only [pureLoop]; rw [if_neg hv, if_pos hs]]
          have := ih (done ++ [s + v]) none
          simp only [Option.toList_some, Option.toList_none, List.length_append,
            List.length_cons, List.length_nil] at this ⊢
          omega
        · rw [show pureLoop (v :: vs') done (some s)
              = pureLoop vs' (done ++ [s]) (some v) from by
            simp only [pureLoop]; rw [if_neg hv, if_neg hs]]
          have := ih (done ++ [s]) (some v)
          simp only [Option.toList_some, List.length_append, List.length_cons,
            List.length_nil] at this ⊢
          omega

theorem mergeLine_length (vs : List Nat) : (mergeLine vs).length = vs.length := by
  have h := pureLoop_out_le vs [] none
  simp only [List.length_nil, Option.toList_none, Nat.zero_add] at h
  simp only [mergeLine, List.length_append, List.length_replicate]
  omega

theorem lineFrom_cons (m : Nat) (p : Position) (dir : Direction) :
    lineFrom (m + 1) p dir
      = p :: (match p.neibouring_cell dir with
              | none => []
              | some n => lineFrom m n dir) := rfl

theorem line_head (p : Position) (dir : Direction) : pat (line p dir) 0 = p := by
  rw [line, show (36 : Nat) = 35 + 1 from rfl, lineFrom_cons]
  rfl

theorem line_length_one_edge (q : Position) (dir : Direction)
    (h : (line q dir).length = 1) : q.neibouring_cell dir = none := by
  rw [line, show (36 : Nat) = 35 + 1 from rfl, lineFrom_cons] at h
  cases hq : q.neibouring_cell dir with
  | none => rfl
  | some n =>
    rw [hq] at h
    have h2 : (q :: lineFrom 35 n dir).length = 1 := h
    rw [show (35 : Nat) = 34 + 1 from rfl, lineFrom_cons] at h2
    simp at h2

/-- The trailing clear over the suffix of the line turns the post-scan board
into the original board with the line overwritten by the padded output. -/
theorem final_state_eq (L : List Position) (l0 : List Nat) (gf : GameState)
    (out : List Nat)
    (hnd : (L.map Position.position).Nodup)
    (hbounds : ∀ p ∈ L, p.row ≤ 5 ∧ p.column ≤ 5)
    (hflen : gf.state.length = 36) (hl0len : l0.length = 36)
    (houtle : out.length ≤ L.length)
    (hoff : ∀ j, j ∉ L.map Position.position → gf.state.getD j 0 = l0.getD j 0)
    (hvals : ∀ i, i < out.length →
      gf.state.getD (pat L i).position 0 = out.getD i 0) :
    ((L.drop out.length).foldl (fun s p => s.setCell p 0) gf).state
      = writeVals l0 L (out ++ List.replicate (L.length - out.length) 0) := by
  have hbpos : ∀ q ∈ L, q.position < 36 := by
    intro q hq
    exact position_lt_36 q (hbounds q hq).1 (hbounds q hq).2
  apply ext_getD _ _ 0
  · rw [clear_fold_length, hflen, writeVals_length, hl0len]
  · intro j hj
    rw [clear_fold_length, hflen] at hj
    rw [clear_fold_getD]
    · by_cases hjL : j ∈ L.map Position.position
      · obtain ⟨q, hq, hqj⟩ := List.mem_map.mp hjL
        obtain ⟨i, hiL, hqi⟩ := List.mem_iff_getElem.mp hq
        have hji : j = (pat L i).position := by
          rw [pat_eq_getElem L i hiL, hqi, hqj]
        subst hji
        have hrhs : (writeVals l0 L (out ++ List.replicate (L.length - out.length) 0)).getD
            (pat L i).position 0
            = (out ++ List.replicate (L.length - out.length) 0).getD i 0 := by
          apply writeVals_getD L l0 _ i hnd
          · intro q hq; rw [hl0len]; exact hbpos q hq
          · rw [List.length_append, List.length_replicate]; omega
          · exact hiL
        rw [hrhs]
        by_cases hout : out.length ≤ i
        · rw [if_pos ((mem_map_drop_iff L hnd out.length i hiL).mpr hout)]
          rw [getD_append_right _ _ _ _ hout, getD_replicate]
        · push_neg at hout
          rw [if_neg]
          · rw [getD_append_left _ _ _ _ hout]
            exact hvals i hout
          · intro hmem
            have := (mem_map_drop_iff L hnd out.length i hiL).mp hmem
            omega
      · have hnd' : j ∉ (L.drop out.length).map Position.position := by
          intro hmem
          exact hjL (List.map_subset Position.position (List.drop_subset _ _) hmem)
        rw [if_neg hnd', hoff j hjL, writeVals_frame L l0 _ j hjL]
    · intro q hq
      rw [hflen]
      exact hbpos q (List.drop_subset _ _ hq)

theorem readVals_length (l : List Nat) (L : List Position) :
    (readVals l L).length = L.length := by
  simp [readVals]

/-- Master characterization of `aggregate`: the merge pass on the line from
`head` rewrites exactly the line's cells with `mergeLine` of their old
values, and touches nothing else. -/
theorem aggregate_spec (g : GameState) (head : Position) (d : Direction)
    (hok : lineOK (line head d.opposite) d.opposite) (hlen : g.state.length = 36) :
    (g.aggregate head d).state
      = writeVals g.state (line head d.opposite)
          (mergeLine (readVals g.state (line head d.opposite))) := by
  have hne := hok.1
  have hbounds := hok.2.1
  have hnd := hok.2.2.1
  have hchain := hok.2.2.2.1
  have hsuffix := hok.2.2.2.2
  set L := line head d.opposite with hL
  have hLlen : 0 < L.length := List.length_pos.mpr hne
  have hhead : pat L 0 = head := line_head head d.opposite
  have hinv0 : LoopInv L g.state 0 g [] none head 0 :=
    ⟨hlen, fun _ _ => rfl, fun i hi => absurd hi (Nat.not_lt_zero i), rfl,
      fun _ _ _ => rfl, hhead.symm, Nat.le_refl 0, fun _ => Or.inl rfl⟩
  have hsim := aggLoop_sim d L g.state hok L 0 g [] none head 0
    (List.drop_zero L).symm (Nat.zero_le _) hinv0
  obtain ⟨hflen, hfoff, hfdone, hfst, hforig, hfw, hfcount, hfnone⟩ := hsim
  simp only [GameState.aggregate]
  rw [← hL]
  cases hp2 : (pureLoop (readVals g.state L) [] none).2 with
  | none =>
    rw [hp2] at hfst hfnone
    have hA2 : (aggregateLoop d L g head 0).2.2 = 0 := hfst
    have hdF : (pureLoop (readVals g.state L) [] none).1.length < L.length := by
      rcases hfnone rfl with h0 | h
      · omega
      · exact h
    have hml : mergeLine (readVals g.state L)
        = (pureLoop (readVals g.state L) [] none).1
            ++ List.replicate
              (L.length - (pureLoop (readVals g.state L) [] none).1.length) 0 := by
      simp only [mergeLine, hp2, Option.toList_none, List.append_nil, readVals_length]
    rw [hml, if_pos hA2, hfw, hsuffix _ hdF]
    exact final_state_eq L g.state (aggregateLoop d L g head 0).1
      (pureLoop (readVals g.state L) [] none).1 hnd hbounds hflen hlen
      (le_of_lt hdF) hfoff hfdone
  | some s =>
    rw [hp2] at hfst hfnone
    obtain ⟨hA2, hs0, hsval⟩ := hfst
    have hd1L : (pureLoop (readVals g.state L) [] none).1.length + 1 ≤ L.length := by
      have := hfcount
      omega
    have hml : mergeLine (readVals g.state L)
        = ((pureLoop (readVals g.state L) [] none).1 ++ [s])
            ++ List.replicate
              (L.length - ((pureLoop (readVals g.state L) [] none).1 ++ [s]).length) 0 := by
      simp only [mergeLine, hp2, Option.toList_some, readVals_length]
    have hvals1 : ∀ i, i < ((pureLoop (readVals g.state L) [] none).1 ++ [s]).length →
        (aggregateLoop d L g head 0).1.state.getD (pat L i).position 0
          = ((pureLoop (readVals g.state L) [] none).1 ++ [s]).getD i 0 := by
      intro i hi
      simp only [List.length_append, List.length_cons, List.length_nil] at hi
      rcases Nat.lt_or_ge i (pureLoop (readVals g.state L) [] none).1.length with hlt | hge
      · rw [getD_append_left _ _ _ _ hlt]
        exact hfdone i hlt
      · have : i = (pureLoop (readVals g.state L) [] none).1.length := by omega
        subst this
        rw [getD_append_right _ _ _ _ (le_refl _)]
        simpa using hsval
    have hfin := final_state_eq L g.state (aggregateLoop d L g head 0).1
      ((pureLoop (readVals g.state L) [] none).1 ++ [s]) hnd hbounds hflen hlen
      (by simp only [List.length_append, List.length_cons, List.length_nil]; omega)
      hfoff hvals1
    rw [hml, if_neg (show ¬(aggregateLoop d L g head 0).2.2 = 0 by rw [hA2]; omega)]
    rcases Nat.lt_or_ge ((pureLoop (readVals g.state L) [] none).1.length + 1) L.length
      with hlt | hge
    · have hrem : (match (aggregateLoop d L g head 0).2.1.neibouring_cell d.opposite with
          | some next => line next d.opposite
          | none => ([] : List Position))
          = L.drop ((pureLoop (readVals g.state L) [] none).1 ++ [s]).length := by
        rw [hfw, hchain _ (by omega) hlt]
        simp only [List.length_append, List.length_cons, List.length_nil]
        exact hsuffix _ hlt
      rw [hrem]
      exact hfin
    · have heq : (pureLoop (readVals g.state L) [] none).1.length + 1 = L.length := by
        omega
      have hrem : (match (aggregateLoop d L g head 0).2.1.neibouring_cell d.opposite with
          | some next => line next d.opposite
          | none => ([] : List Position))
          = L.drop ((pureLoop (readVals g.state L) [] none).1 ++ [s]).length := by
        have hlast : (aggregateLoop d L g head 0).2.1.neibouring_cell d.opposite = none := by
          rw [hfw]
          apply line_length_one_edge _ d.opposite
          rw [hsuffix _ (by omega), List.length_drop]
          omega
        rw [hlast]
        simp only [List.length_append, List.length_cons, List.length_nil]
        rw [heq, List.drop_length]
      rw [hrem]
      exact hfin

theorem aggregateLoop_length (d : Direction) (ps : List Position) :
    ∀ (g : GameState) (w : Position) (c : Nat),
      (aggregateLoop d ps g w c).1.state.length = g.state.length := by
  induction ps with
  | nil => intro g w c; rfl
  | cons p t ih =>
    intro g w c
    simp only [aggregateLoop]
    split
    · exact ih g w c
    · split
      · rw [ih]; rw [setCell_state, List.length_set]
      · split
        · split
          · rw [ih]; rw [setCell_state, List.length_set]
          · rw [ih]; rw [setCell_state, List.length_set]
        · exact ih g w c

theorem aggregate_length (g : GameState) (h : Position) (d : Direction) :
    (g.aggregate h d).state.length = g.state.length := by
  simp only [GameState.aggregate]
  rw [clear_fold_length, aggregateLoop_length]

theorem aggregate_flags (g : GameState) (h : Position) (d : Direction) :
    (g.aggregate h d).is_dead = g.is_dead ∧ (g.aggregate h d).won = g.won := by
  simp only [GameState.aggregate]
  exact ⟨(clear_fold_flags _ _).1.trans (aggregateLoop_flags d _ g h 0).1,
    (clear_fold_flags _ _).2.trans (aggregateLoop_flags d _ g h 0).2⟩

theorem mergeAll_flags (g : GameState) (d : Direction) :
    (g.mergeAll d).is_dead = g.is_dead ∧ (g.mergeAll d).won = g.won := by
  rw [GameState.mergeAll]
  generalize LineIteration.heads d = hs
  induction hs generalizing g with
  | nil => exact ⟨rfl, rfl⟩
  | cons h t ih =>
    simp only [List.foldl_cons]
    exact ⟨(ih (g.aggregate h d)).1.trans (aggregate_flags g h d).1,
      (ih (g.aggregate h d)).2.trans (aggregate_flags g h d).2⟩

theorem mergeAll_length (g : GameState) (d : Direction) :
    (g.mergeAll d).state.length = g.state.length := by
  rw [GameState.mergeAll]
  generalize LineIteration.heads d = hs
  induction hs generalizing g with
  | nil => rfl
  | cons h t ih =>
    simp only [List.foldl_cons]
    rw [ih (g.aggregate h d), aggregate_length]

/-- Every line of the board (for every direction and every head cell) is a
well-formed line. -/
theorem heads_ok : ∀ d : Direction, ∀ h ∈ LineIteration.heads d,
    lineOK (line h d.opposite) d.opposite := by
  intro d
  cases d <;> decide

theorem readVals_getD (L : List Position) :
    ∀ (l : List Nat) (i : Nat), i < L.length →
      (readVals l L).getD i 0 = l.getD (pat L i).position 0 := by
  induction L with
  | nil => intro l i hi; simp at hi
  | cons p t ih =>
    intro l i hi
    cases i with
    | zero => simp [readVals, pat]
    | succ n =>
      have h1 : readVals l (p :: t) = l.getD p.position 0 :: readVals l t := by
        simp [readVals]
      rw [h1, List.getD_cons_succ]
      rw [show pat (p :: t) (n + 1) = pat t n from by simp [pat]]
      exact ih l n (by simpa using hi)

theorem readVals_writeVals (L : List Position) (l : List Nat) (vs : List Nat)
    (hnd : (L.map Position.position).Nodup)
    (hb : ∀ q ∈ L, q.position < l.length)
    (hvl : vs.length = L.length) :
    readVals (writeVals l L vs) L = vs := by
  apply ext_getD _ _ 0
  · rw [readVals_length, hvl]
  · intro i hi
    rw [readVals_length] at hi
    rw [readVals_getD L _ i hi]
    exact writeVals_getD L l vs i hnd hb hvl hi

theorem writeVals_id (L : List Position) (l : List Nat)
    (hnd : (L.map Position.position).Nodup)
    (hb : ∀ q ∈ L, q.position < l.length) :
    writeVals l L (readVals l L) = l := by
  apply ext_getD _ _ 0
  · rw [writeVals_length]
  · intro j hj
    rw [writeVals_length] at hj
    by_cases hjL : j ∈ L.map Position.position
    · obtain ⟨q, hq, hqj⟩ := List.mem_map.mp hjL
      obtain ⟨i, hiL, hqi⟩ := List.mem_iff_getElem.mp hq
      have hji : j = (pat L i).position := by
        rw [pat_eq_getElem L i hiL, hqi, hqj]
      subst hji
      rw [writeVals_getD L l _ i hnd hb (readVals_length l L) hiL]
      rw [readVals_getD L l i hiL]
    · exact writeVals_frame L l _ j hjL

/-! ## Terminal detector characterizations -/

theorem wins_iff (g : GameState) :
    g.wins = true ↔ ∃ i, i < 36 ∧ 2048 ≤ g.state.getD i 0 := by
  rw [GameState.wins, List.any_eq_true]
  constructor
  · rintro ⟨i, hi, hdec⟩
    exact ⟨i, List.mem_range.mp hi, of_decide_eq_true hdec⟩
  · rintro ⟨i, hi, hle⟩
    exact ⟨i, List.mem_range.mpr hi, decide_eq_true hle⟩

theorem mergeable_iff (g : GameState) (x y : Position) :
    g.mergeable x y = true ↔ (g.read y ≠ 0 ∧ g.read x = g.read y) := by
  rw [GameState.mergeable]
  simp only [Bool.and_eq_true, bne_iff_ne, ne_eq, beq_iff_eq]
  constructor
  · rintro ⟨⟨_, hy⟩, he⟩
    exact ⟨hy, he⟩
  · rintro ⟨hy, he⟩
    refine ⟨⟨?_, hy⟩, he⟩
    rw [he]
    exact hy

theorem neighborOK_iff (g : GameState) (p : Position) (dir : Direction) :
    g.neighborOK p dir = true ↔
      ∀ j, p.neibouring_cell dir = some j →
        ¬(g.read j ≠ 0 ∧ g.read p = g.read j) := by
  cases h : p.neibouring_cell dir with
  | none =>
    simp only [GameState.neighborOK, h]
    constructor
    · intro _ j hj
      cases hj
    · intro _
      trivial
  | some j =>
    simp only [GameState.neighborOK, h, Bool.not_eq_true']
    constructor
    · intro hf j' hj' hcon
      cases Option.some.inj hj'
      have := (mergeable_iff g p j).mpr hcon
      rw [hf] at this
      cases this
    · intro hr
      cases hm : g.mergeable p j
      · rfl
      · exact absurd ((mergeable_iff g p j).mp hm) (hr j rfl)

theorem dead_iff (g : GameState) :
    g.dead = true ↔
      ((∀ i, i < 36 → g.read (Position.from_index i) ≠ 0) ∧
       (∀ i, i < 36 → ∀ dir : Direction, ∀ j : Position,
          (Position.from_index i).neibouring_cell dir = some j →
          ¬(g.read j ≠ 0 ∧ g.read (Position.from_index i) = g.read j))) := by
  rw [GameState.dead, List.all_eq_true]
  constructor
  · intro hall
    refine ⟨?_, ?_⟩
    · intro i hi
      have h := hall i (List.mem_range.mpr hi)
      simp only [Bool.and_eq_true, bne_iff_ne, ne_eq] at h
      exact h.1.1.1.1
    · intro i hi dir j hnb
      have h := hall i (List.mem_range.mpr hi)
      simp only [Bool.and_eq_true] at h
      cases dir with
      | Up => exact (neighborOK_iff g _ _).mp h.1.1.1.2 j hnb
      | Down => exact (neighborOK_iff g _ _).mp h.1.1.2 j hnb
      | Left => exact (neighborOK_iff g _ _).mp h.1.2 j hnb
      | Right => exact (neighborOK_iff g _ _).mp h.2 j hnb
  · rintro ⟨ha, hb⟩
    intro i hi'
    have hi := List.mem_range.mp hi'
    simp only [Bool.and_eq_true, bne_iff_ne, ne_eq]
    exact ⟨⟨⟨⟨ha i hi, (neighborOK_iff g _ _).mpr (hb i hi .Up)⟩,
      (neighborOK_iff g _ _).mpr (hb i hi .Down)⟩,
      (neighborOK_iff g _ _).mpr (hb i hi .Left)⟩,
      (neighborOK_iff g _ _).mpr (hb i hi .Right)⟩

/-! ## Pure merge-pass facts -/

theorem pureLoop_no_merge : ∀ (vs done : List Nat) (s : Nat), s ≠ 0 →
    (∀ v ∈ vs, v ≠ 0) → List.Chain' (fun a b => a ≠ b) (s :: vs) →
    (pureLoop vs done (some s)).1 ++ (pureLoop vs done (some s)).2.toList
      = done ++ s :: vs := by
  intro vs
  induction vs with
  | nil =>
    intro done s _ _ _
    simp [pureLoop]
  | cons v vs' ih =>
    intro done s hs0 hnz hch
    have hv0 : v ≠ 0 := hnz v (List.mem_cons_self v vs')
    have hsv : s ≠ v := (List.chain'_cons.mp hch).1
    rw [show pureLoop (v :: vs') done (some s)
        = pureLoop vs' (done ++ [s]) (some v) from by
      simp only [pureLoop]; rw [if_neg hv0, if_neg hsv]]
    rw [ih (done ++ [s]) v hv0 (fun u hu => hnz u (List.mem_cons_of_mem v hu))
      (List.chain'_cons.mp hch).2]
    simp

theorem mergeLine_no_merge (vs : List Nat) (hnz : ∀ v ∈ vs, v ≠ 0)
    (hch : List.Chain' (fun a b => a ≠ b) vs) : mergeLine vs = vs := by
  cases vs with
  | nil => rfl
  | cons v vs' =>
    have hv0 : v ≠ 0 := hnz v (List.mem_cons_self v vs')
    have hstep : pureLoop (v :: vs') [] none = pureLoop vs' [] (some v) := by
      simp only [pureLoop]; rw [if_neg hv0]
    have hout := pureLoop_no_merge vs' [] v hv0
      (fun u hu => hnz u (List.mem_cons_of_mem v hu)) hch
    rw [mergeLine, hstep]
    rw [hout]
    simp

theorem pureLoop_sum : ∀ (vs done : List Nat) (st : Option Nat),
    (pureLoop vs done st).1.sum + (pureLoop vs done st).2.toList.sum
      = done.sum + st.toList.sum + vs.sum := by
  intro vs
  induction vs with
  | nil => intro done st; simp [pureLoop]
  | cons v vs' ih =>
    intro done st
    by_cases hv : v = 0
    · rw [show pureLoop (v :: vs') done st = pureLoop vs' done st from by
        simp only [pureLoop]; rw [if_pos hv]]
      rw [ih done st]
      subst hv
      simp
    · cases st with
      | none =>
        rw [show pureLoop (v :: vs') done none = pureLoop vs' done (some v) from by
          simp only [pureLoop]; rw [if_neg hv]]
        rw [ih done (some v)]
        simp [List.sum_cons]
        omega
      | some s =>
        by_cases hs : s = v
        · rw [show pureLoop (v :: vs') done (some s)
              = pureLoop vs' (done ++ [s + v]) none from by
            simp only [pureLoop]; rw [if_neg hv, if_pos hs]]
          rw [ih (done ++ [s + v]) none]
          simp [List.sum_cons]
          omega
        · rw [show pureLoop (v :: vs') done (some s)
              = pureLoop vs' (done ++ [s]) (some v) from by
            simp only [pureLoop]; rw [if_neg hv, if_neg hs]]
          rw [ih (done ++ [s]) (some v)]
          simp [List.sum_cons]
          omega

theorem sum_replicate_zero (n : Nat) : (List.replicate n (0 : Nat)).sum = 0 := by
  induction n with
  | zero => rfl
  | succ m ih => simp [List.replicate, ih]

theorem mergeLine_sum (vs : List Nat) : (mergeLine vs).sum = vs.sum := by
  have h := pureLoop_sum vs [] none
  simp only [List.sum_nil, Option.toList_none, Nat.zero_add] at h
  rw [mergeLine]
  rw [List.sum_append, List.sum_append, sum_replicate_zero]
  omega

/-! ## Spawner facts -/

theorem enum_empties_facts : ∀ (l : List Nat) (n i : Nat),
    i ∈ ((l.enumFrom n).map fun s => if s.2 = 0 then some s.1 else none).filterMap id →
    n ≤ i ∧ i - n < l.length ∧ l.getD (i - n) 0 = 0 := by
  intro l
  induction l with
  | nil => intro n i h; simp [List.enumFrom] at h
  | cons a t ih =>
    intro n i h
    simp only [List.enumFrom, List.map_cons] at h
    by_cases ha : a = 0
    · rw [if_pos ha] at h
      rw [List.filterMap_cons] at h
      simp only [id] at h
      rcases List.mem_cons.mp h with he | ht
      · rw [he]
        refine ⟨le_refl n, by simp, ?_⟩
        simp [ha]
      · have := ih (n + 1) i ht
        refine ⟨by omega, by simp; omega, ?_⟩
        have hd : i - n = (i - (n + 1)) + 1 := by omega
        rw [hd, List.getD_cons_succ]
        exact this.2.2
    · rw [if_neg ha] at h
      rw [List.filterMap_cons] at h
      simp only [id] at h
      have := ih (n + 1) i h
      refine ⟨by omega, by simp; omega, ?_⟩
      have hd : i - n = (i - (n + 1)) + 1 := by omega
      rw [hd, List.getD_cons_succ]
      exact this.2.2

theorem empties_mem (g : GameState) (i : Nat) (h : i ∈ g.empties) :
    i < g.state.length ∧ g.state.getD i 0 = 0 := by
  rw [GameState.empties, List.enum] at h
  have := enum_empties_facts g.state 0 i h
  exact ⟨by omega, by simpa using this.2.2⟩

/-! ## Claim theorems -/

theorem lineOK_bpos (L : List Position) (dir : Direction) (hok : lineOK L dir) :
    ∀ q ∈ L, q.position < 36 :=
  fun q hq => position_lt_36 q (hok.2.1 q hq).1 (hok.2.1 q hq).2

/-- C1: for any line whose six cells hold the values [2,2,2,2,0,0] in scan
order (head first), the merge pass on that line in the pressed direction
yields [4,4,0,0,0,0]: two independent pairwise merges and no triple merge. -/
theorem claim_C1 (g : GameState) (d : Direction) (h : Position)
    (hh : h ∈ LineIteration.heads d) (hlen : g.state.length = 36)
    (hvals : readVals g.state (line h d.opposite) = [2, 2, 2, 2, 0, 0]) :
    readVals (g.aggregate h d).state (line h d.opposite) = [4, 4, 0, 0, 0, 0] := by
  have hok := heads_ok d h hh
  have hbp : ∀ q ∈ line h d.opposite, q.position < g.state.length := by
    intro q hq
    rw [hlen]
    exact lineOK_bpos _ _ hok q hq
  have hLlen : (line h d.opposite).length = 6 := by
    have hr := readVals_length g.state (line h d.opposite)
    rw [hvals] at hr
    simpa using hr.symm
  rw [aggregate_spec g h d hok hlen, hvals,
    show mergeLine [2, 2, 2, 2, 0, 0] = [4, 4, 0, 0, 0, 0] from rfl]
  exact readVals_writeVals _ _ _ hok.2.2.1 hbp (by simp [hLlen])

/-- Concrete board: row 0 holds [2,2,2,2,0,0], everything else empty. -/
def B1 : GameState := ⟨[2, 2, 2, 2, 0, 0] ++ List.replicate 30 0, false, false⟩

theorem claim_C1_witness :
    readVals (B1.aggregate ⟨0, 0⟩ Direction.Left).state
        (line ⟨0, 0⟩ Direction.Left.opposite) = [4, 4, 0, 0, 0, 0] :=
  claim_C1 B1 Direction.Left ⟨0, 0⟩ (by decide) (by decide) (by decide)

/-- C2: a line holding [2,2,4,0,0,0] in scan order merges to [4,4,0,0,0,0]
and not [8,0,0,0,0,0]: a freshly merged tile does not merge again in the same
move. -/
theorem claim_C2 (g : GameState) (d : Direction) (h : Position)
    (hh : h ∈ LineIteration.heads d) (hlen : g.state.length = 36)
    (hvals : readVals g.state (line h d.opposite) = [2, 2, 4, 0, 0, 0]) :
    readVals (g.aggregate h d).state (line h d.opposite) = [4, 4, 0, 0, 0, 0]
      ∧ readVals (g.aggregate h d).state (line h d.opposite) ≠ [8, 0, 0, 0, 0, 0] := by
  have hok := heads_ok d h hh
  have hbp : ∀ q ∈ line h d.opposite, q.position < g.state.length := by
    intro q hq
    rw [hlen]
    exact lineOK_bpos _ _ hok q hq
  have hLlen : (line h d.opposite).length = 6 := by
    have hr := readVals_length g.state (line h d.opposite)
    rw [hvals] at hr
    simpa using hr.symm
  have h1 : readVals (g.aggregate h d).state (line h d.opposite) = [4, 4, 0, 0, 0, 0] := by
    rw [aggregate_spec g h d hok hlen, hvals,
      show mergeLine [2, 2, 4, 0, 0, 0] = [4, 4, 0, 0, 0, 0] from rfl]
    exact readVals_writeVals _ _ _ hok.2.2.1 hbp (by simp [hLlen])
  refine ⟨h1, ?_⟩
  rw [h1]
  decide

/-- Concrete board: row 0 holds [2,2,4,0,0,0], everything else empty. -/
def B2 : GameState := ⟨[2, 2, 4, 0, 0, 0] ++ List.replicate 30 0, false, false⟩

theorem claim_C2_witness :
    readVals (B2.aggregate ⟨0, 0⟩ Direction.Left).state
        (line ⟨0, 0⟩ Direction.Left.opposite) = [4, 4, 0, 0, 0, 0]
      ∧ readVals (B2.aggregate ⟨0, 0⟩ Direction.Left).state
          (line ⟨0, 0⟩ Direction.Left.opposite) ≠ [8, 0, 0, 0, 0, 0] :=
  claim_C2 B2 Direction.Left ⟨0, 0⟩ (by decide) (by decide) (by decide)

theorem chain_of_getD : ∀ l : List Nat,
    (∀ i, i < l.length → i + 1 < l.length → l.getD i 0 ≠ l.getD (i + 1) 0) →
    List.Chain' (fun a b => a ≠ b) l := by
  intro l
  induction l with
  | nil => intro _; exact List.chain'_nil
  | cons a t ih =>
    intro hne
    cases t with
    | nil => exact List.chain'_singleton a
    | cons b t' =>
      rw [List.chain'_cons]
      refine ⟨hne 0 (by simp) (by simp), ih ?_⟩
      intro i hi hi1
      have := hne (i + 1) (by simpa using hi) (by simpa using hi1)
      simpa using this

/-- C8: a full line with no equal adjacent pair is left unchanged by the merge
pass, whichever of the two directions along the line is pressed (here stated
for every direction and every line head: the whole board is unchanged). -/
theorem claim_C8 (g : GameState) (d : Direction) (h : Position)
    (hh : h ∈ LineIteration.heads d) (hlen : g.state.length = 36)
    (hnz : ∀ v ∈ readVals g.state (line h d.opposite), v ≠ 0)
    (hne : ∀ i, i < (readVals g.state (line h d.opposite)).length →
      i + 1 < (readVals g.state (line h d.opposite)).length →
      (readVals g.state (line h d.opposite)).getD i 0
        ≠ (readVals g.state (line h d.opposite)).getD (i + 1) 0) :
    (g.aggregate h d).state = g.state := by
  have hch := chain_of_getD _ hne
  have hok := heads_ok d h hh
  have hbp : ∀ q ∈ line h d.opposite, q.position < g.state.length := by
    intro q hq
    rw [hlen]
    exact lineOK_bpos _ _ hok q hq
  rw [aggregate_spec g h d hok hlen, mergeLine_no_merge _ hnz hch]
  exact writeVals_id _ _ hok.2.2.1 hbp

/-- Concrete board: row 0 holds [2,4,2,4,2,4], everything else empty. -/
def B8 : GameState := ⟨[2, 4, 2, 4, 2, 4] ++ List.replicate 30 2048, false, false⟩

theorem claim_C8_witness :
    (B8.aggregate ⟨0, 0⟩ Direction.Left).state = B8.state :=
  claim_C8 B8 Direction.Left ⟨0, 0⟩ (by decide) (by decide) (by decide) (by decide)

/-- C10: the merge pass on one line preserves the sum of that line's six cell
values and leaves every cell outside the line unchanged. -/
theorem claim_C10 (g : GameState) (d : Direction) (h : Position)
    (hh : h ∈ LineIteration.heads d) (hlen : g.state.length = 36) :
    ((readVals (g.aggregate h d).state (line h d.opposite)).sum
      = (readVals g.state (line h d.opposite)).sum)
    ∧ (∀ j, j ∉ (line h d.opposite).map Position.position →
        (g.aggregate h d).state.getD j 0 = g.state.getD j 0) := by
  have hok := heads_ok d h hh
  have hbp : ∀ q ∈ line h d.opposite, q.position < g.state.length := by
    intro q hq
    rw [hlen]
    exact lineOK_bpos _ _ hok q hq
  constructor
  · rw [aggregate_spec g h d hok hlen]
    rw [readVals_writeVals _ _ _ hok.2.2.1 hbp
      (by rw [mergeLine_length, readVals_length])]
    exact mergeLine_sum _
  · intro j hj
    rw [aggregate_spec g h d hok hlen]
    exact writeVals_frame _ _ _ j hj

theorem claim_C10_witness :
    ((readVals (B1.aggregate ⟨0, 0⟩ Direction.Left).state
        (line ⟨0, 0⟩ Direction.Left.opposite)).sum
      = (readVals B1.state (line ⟨0, 0⟩ Direction.Left.opposite)).sum)
    ∧ (∀ j, j ∉ (line ⟨0, 0⟩ Direction.Left.opposite).map Position.position →
        (B1.aggregate ⟨0, 0⟩ Direction.Left).state.getD j 0 = B1.state.getD j 0) :=
  claim_C10 B1 Direction.Left ⟨0, 0⟩ (by decide) (by decide)

theorem from_index_position (i : Nat) : (Position.from_index i).position = i := by
  simp only [Position.from_index, Position.position]
  exact Nat.div_add_mod i 6

/-- C3: on a Playing board, a move first merges all 6 lines; the win check is
true iff some cell of the merged board holds at least 2048, and when it is,
the status becomes Won with no spawn and no loss check in that move. -/
theorem claim_C3 (g : GameState) (d : Direction) (byte : Nat)
    (hwon : g.won = false) (hdead : g.is_dead = false) :
    (LineIteration.heads d).length = 6
    ∧ ((g.mergeAll d).wins = true ↔ ∃ i, i < 36 ∧ 2048 ≤ (g.mergeAll d).state.getD i 0)
    ∧ ((g.mergeAll d).wins = true →
        g.update d byte = ({ g.mergeAll d with won := true }, true)) := by
  refine ⟨by cases d <;> decide, wins_iff _, ?_⟩
  intro hw
  rw [GameState.update, hdead, hwon]
  simp only [Bool.not_false, Bool.and_self, if_true]
  rw [GameState.update_state]
  rw [hw]
  rfl

/-- Concrete board: a 2048 tile at cell (0,0), flags clear. -/
def B3 : GameState := ⟨2048 :: List.replicate 35 0, false, false⟩

theorem claim_C3_witness :
    B3.update Direction.Left 0 = ({ B3.mergeAll Direction.Left with won := true }, true) :=
  (claim_C3 B3 Direction.Left 0 rfl rfl).2.2 (by decide)

/-- C4: the loss check is true iff (a) no cell holds 0 and (b) no cell has a
neighbour (in any of the 4 directions) holding an equal non-zero value; in a
move it runs on the post-spawn board, and when it is true the status becomes
Lost. -/
theorem claim_C4 (g : GameState) (d : Direction) (byte : Nat) :
    (g.dead = true ↔
      ((∀ i, i < 36 → g.state.getD i 0 ≠ 0) ∧
       (∀ i, i < 36 → ∀ dir : Direction, ∀ j : Position,
          (Position.from_index i).neibouring_cell dir = some j →
          ¬(g.state.getD j.position 0 ≠ 0 ∧
            g.state.getD i 0 = g.state.getD j.position 0))))
    ∧ (g.won = false → g.is_dead = false → (g.mergeAll d).wins = false →
        (((g.mergeAll d).add_at_random_position byte).dead = true →
          g.update d byte
            = ({ (g.mergeAll d).add_at_random_position byte with is_dead := true }, true))
        ∧ (((g.mergeAll d).add_at_random_position byte).dead = false →
          g.update d byte = ((g.mergeAll d).add_at_random_position byte, true))) := by
  constructor
  · constructor
    · intro hd
      have h2 := (dead_iff g).mp hd
      refine ⟨?_, ?_⟩
      · intro i hi
        have := h2.1 i hi
        rwa [GameState.read, from_index_position] at this
      · intro i hi dir j hnb
        have := h2.2 i hi dir j hnb
        rwa [GameState.read, GameState.read, from_index_position] at this
    · intro hcl
      apply (dead_iff g).mpr
      refine ⟨?_, ?_⟩
      · intro i hi
        rw [GameState.read, from_index_position]
        exact hcl.1 i hi
      · intro i hi dir j hnb
        rw [GameState.read, GameState.read, from_index_position]
        exact hcl.2 i hi dir j hnb
  · intro hwon hdead hw
    constructor
    · intro hd2
      rw [GameState.update, hdead, hwon]
      simp only [Bool.not_false, Bool.and_self, if_true]
      rw [GameState.update_state, hw]
      simp only [Bool.false_eq_true, if_false]
      rw [hd2]
      rfl
    · intro hd2
      rw [GameState.update, hdead, hwon]
      simp only [Bool.not_false, Bool.and_self, if_true]
      rw [GameState.update_state, hw]
      simp only [Bool.false_eq_true, if_false]
      rw [hd2]
      rfl

/-- Concrete full board with no two equal adjacent values (cells 1..36). -/
def B4 : GameState := ⟨(List.range 36).map (fun i => i + 1), false, false⟩

theorem claim_C4_witness :
    (∀ i, i < 36 → B4.state.getD i 0 ≠ 0) ∧
    (∀ i, i < 36 → ∀ dir : Direction, ∀ j : Position,
      (Position.from_index i).neibouring_cell dir = some j →
      ¬(B4.state.getD j.position 0 ≠ 0 ∧
        B4.state.getD i 0 = B4.state.getD j.position 0)) :=
  (claim_C4 B4 Direction.Left 0).1.mp (by decide)

/-- C5: once `won` or `is_dead` is set, every move event leaves the whole
state (board and both flags) unchanged and reports "state changed" = false. -/
theorem claim_C5 (g : GameState) (d : Direction) (byte : Nat)
    (h : g.won = true ∨ g.is_dead = true) :
    g.update d byte = (g, false) := by
  rw [GameState.update]
  rcases h with h | h <;> rw [h] <;> simp

/-- Concrete won board. -/
def B5 : GameState := ⟨List.replicate 36 0, false, true⟩

theorem claim_C5_witness : B5.update Direction.Up 0 = (B5, false) :=
  claim_C5 B5 Direction.Up 0 (Or.inl rfl)

/-- C6: on a Playing board every move reports "state changed" = true, and
(unless the win check fires) the spawn runs unconditionally after the merge
pass — there is no "board actually changed" guard. -/
theorem claim_C6 (g : GameState) (d : Direction) (byte : Nat)
    (hwon : g.won = false) (hdead : g.is_dead = false) :
    (g.update d byte).2 = true
    ∧ ((g.mergeAll d).wins = false →
        (g.update d byte).1.state
          = ((g.mergeAll d).add_at_random_position byte).state) := by
  constructor
  · rw [GameState.update, hdead, hwon]
    simp
  · intro hw
    rw [GameState.update, hdead, hwon]
    simp only [Bool.not_false, Bool.and_self, if_true]
    rw [GameState.update_state, hw]
    simp only [Bool.false_eq_true, if_false]
    cases hd2 : ((g.mergeAll d).add_at_random_position byte).dead <;> simp [hd2]

/-- Concrete board on which pressing Left moves nothing: a single tile at the
head of its line.  The spawn still runs. -/
def B6 : GameState := ⟨1 :: List.replicate 35 0, false, false⟩

theorem claim_C6_witness :
    (B6.update Direction.Left 7).2 = true
    ∧ (B6.update Direction.Left 7).1.state
        = ((B6.mergeAll Direction.Left).add_at_random_position 7).state :=
  ⟨(claim_C6 B6 Direction.Left 7 rfl rfl).1,
   (claim_C6 B6 Direction.Left 7 rfl rfl).2 (by decide)⟩

/-- C7: the spawner changes at most one cell: with no empty cell it is the
identity; otherwise it sets exactly the empty cell indexed by the random byte
modulo the empty-cell count to 1 — never 2 — leaving every other cell and
both flags unchanged. -/
theorem claim_C7 (g : GameState) (byte : Nat) :
    (g.empties = [] → g.add_at_random_position byte = g)
    ∧ (g.empties ≠ [] →
        (g.empties.getD (byte % g.empties.length) 0 < g.state.length
          ∧ g.state.getD (g.empties.getD (byte % g.empties.length) 0) 0 = 0
          ∧ (g.add_at_random_position byte).state
              = g.state.set (g.empties.getD (byte % g.empties.length) 0) 1
          ∧ (g.add_at_random_position byte).state.getD
              (g.empties.getD (byte % g.empties.length) 0) 0 = 1
          ∧ (∀ j, j ≠ g.empties.getD (byte % g.empties.length) 0 →
              (g.add_at_random_position byte).state.getD j 0 = g.state.getD j 0)
          ∧ (g.add_at_random_position byte).is_dead = g.is_dead
          ∧ (g.add_at_random_position byte).won = g.won)) := by
  have hunfold : g.add_at_random_position byte
      = if g.empties.length = 0 then g
        else { g with
          state := g.state.set (g.empties.getD (byte % g.empties.length) 0) 1 } := rfl
  constructor
  · intro he
    rw [hunfold, he]
    simp
  · intro hne
    have hlen0 : ¬g.empties.length = 0 := by
      simpa [List.length_eq_zero] using hne
    have hk : byte % g.empties.length < g.empties.length :=
      Nat.mod_lt byte (Nat.pos_of_ne_zero hlen0)
    have hmem := getD_mem g.empties (byte % g.empties.length) 0 hk
    have hfacts := empties_mem g _ hmem
    rw [hunfold, if_neg hlen0]
    refine ⟨hfacts.1, hfacts.2, rfl, ?_, ?_, rfl, rfl⟩
    · exact getD_set_self _ _ _ _ hfacts.1
    · intro j hj
      exact getD_set_other _ _ _ _ _ (fun e => hj e.symm)

theorem claim_C7_witness :
    (B6.add_at_random_position 5).state
      = B6.state.set (B6.empties.getD (5 % B6.empties.length) 0) 1
    ∧ B6.state.getD (B6.empties.getD (5 % B6.empties.length) 0) 0 = 0 :=
  ⟨((claim_C7 B6 5).2 (by decide)).2.2.1, ((claim_C7 B6 5).2 (by decide)).2.1⟩

/-- C9: cell access through the bounds-checked indexers aborts (modelled as
`none`) exactly on a row or column above 5 — no clamping or wrapping — and in
bounds it succeeds; every position the game's own operations generate (line
heads, line cells, scan indices, neighbours of in-bounds cells) is in
bounds, so the abort branch is unreachable in play. -/
theorem claim_C9 :
    (∀ (g : GameState) (p : Position), (5 < p.row ∨ 5 < p.column) →
      g.index p = none ∧ ∀ v, g.indexSet p v = none)
    ∧ (∀ (g : GameState) (p : Position), p.row ≤ 5 → p.column ≤ 5 →
        g.index p = some (g.state.getD p.position 0)
          ∧ ∀ v, g.indexSet p v = some (g.setCell p v))
    ∧ (∀ d : Direction, ∀ h ∈ LineIteration.heads d, ∀ p ∈ line h d.opposite,
        p.row ≤ 5 ∧ p.column ≤ 5)
    ∧ (∀ i, i < 36 →
        (Position.from_index i).row ≤ 5 ∧ (Position.from_index i).column ≤ 5)
    ∧ (∀ (p j : Position) (dir : Direction), p.row ≤ 5 → p.column ≤ 5 →
        p.neibouring_cell dir = some j → j.row ≤ 5 ∧ j.column ≤ 5) := by
  refine ⟨?_, ?_, ?_, ?_, ?_⟩
  · intro g p h
    exact ⟨by rw [GameState.index, if_pos h],
      fun v => by rw [GameState.indexSet, if_pos h]⟩
  · intro g p hr hc
    have hn : ¬(5 < p.row ∨ 5 < p.column) := by omega
    exact ⟨by rw [GameState.index, if_neg hn],
      fun v => by rw [GameState.indexSet, if_neg hn]⟩
  · intro d h hh
    exact fun p hp => (heads_ok d h hh).2.1 p hp
  · intro i hi
    constructor
    · show i / 6 ≤ 5
      omega
    · show i % 6 ≤ 5
      omega
  · intro p j dir hr hc hnb
    cases dir with
    | Up =>
      simp only [Position.neibouring_cell] at hnb
      by_cases h0 : p.row = 0
      · rw [if_pos h0] at hnb; cases hnb
      · rw [if_neg h0] at hnb
        cases hnb
        exact ⟨show p.row - 1 ≤ 5 by omega, hc⟩
    | Down =>
      simp only [Position.neibouring_cell] at hnb
      by_cases h0 : p.row = 5
      · rw [if_pos h0] at hnb; cases hnb
      · rw [if_neg h0] at hnb
        cases hnb
        exact ⟨show p.row + 1 ≤ 5 by omega, hc⟩
    | Left =>
      simp only [Position.neibouring_cell] at hnb
      by_cases h0 : p.column = 0
      · rw [if_pos h0] at hnb; cases hnb
      · rw [if_neg h0] at hnb
        cases hnb
        exact ⟨hr, show p.column - 1 ≤ 5 by omega⟩
    | Right =>
      simp only [Position.neibouring_cell] at hnb
      by_cases h0 : p.column = 5
      · rw [if_pos h0] at hnb; cases hnb
      · rw [if_neg h0] at hnb
        cases hnb
        exact ⟨hr, show p.column + 1 ≤ 5 by omega⟩

theorem claim_C9_witness :
    B1.index ⟨7, 0⟩ = none
    ∧ B1.index ⟨0, 0⟩ = some (B1.state.getD (Position.position ⟨0, 0⟩) 0) :=
  ⟨(claim_C9.1 B1 ⟨7, 0⟩ (Or.inl (by decide))).1,
   (claim_C9.2.1 B1 ⟨0, 0⟩ (by decide) (by decide)).1⟩
